import Mathlib

/-!
Verification of the dining-philosophers simulation in
`src/DiningPhilosopher/DiningPhilosopher.py`.

The Python program is embedded shallowly:

* `Fork` mirrors the `Fork` class.  The underlying `threading.Lock` is
  modelled by the boolean field `locked`; the outcome of
  `lock.acquire(timeout=1)` is an oracle input (`acquired : Bool`), since
  (non-)expiry of the timeout is decided by the scheduler.  The per-fork
  `Queue` is modelled as the list of `(index, kind)` tuples put on it.
* The control flow of `Philosopher.eat` and `Philosopher.run` is embedded
  as functions producing a trace of observable actions (`Act`); lock
  acquisition outcomes are supplied by an oracle list, and a run that does
  not finish within the supplied oracle returns `none`.
* The wiring in `main` (fork/philosopher construction and the queue each
  object is given) is embedded as functions of the configuration values
  `n`, `m`, with `Queue()` allocations identified by allocation order.
-/

namespace DiningPhil

/-- State of one `Fork` object: `index`, the `threading.Lock` (modelled by
whether it is currently held), the `picked_up` flag, the `owner` field
(`-1` for none, as in the constructor), and the contents of its `queue`
as the list of `(index, kind)` tuples put on it so far. -/
structure Fork where
  index : Nat
  locked : Bool
  picked_up : Bool
  owner : Int
  queue : List (Nat × String)
  deriving Repr, DecidableEq

/-- `Fork.__init__`: `picked_up = False`, `owner = -1`, fresh (unheld) lock,
empty queue. -/
def Fork.init (i : Nat) : Fork :=
  { index := i, locked := false, picked_up := false, owner := -1, queue := [] }

/-- `Fork.pickup(owner)`.  `acquired` is the outcome of
`self.lock.acquire(timeout=1)` (an oracle: whether the lock was obtained
before the timeout).  On success the lock is held, `owner` and `picked_up`
are set and `(self.index, "pickup")` is put on the queue, returning `True`;
on timeout the method returns `False` and touches nothing. -/
def Fork.pickup (f : Fork) (owner : Int) (acquired : Bool) : Fork × Bool :=
  if acquired then
    ({ f with locked := true, owner := owner, picked_up := true,
              queue := f.queue ++ [(f.index, "pickup")] }, true)
  else
    (f, false)

/-- `Fork.put_down()`.  `self.lock.release()` raises `RuntimeError` when the
lock is not held; the exception propagates before any of the following
statements run, so the fork is returned unchanged together with the error.
When the lock is held, it is released, `picked_up`/`owner` are reset and
`(self.index, "put down")` is put on the queue. -/
def Fork.put_down (f : Fork) : Fork × Except String Unit :=
  if f.locked then
    ({ f with locked := false, picked_up := false, owner := -1,
              queue := f.queue ++ [(f.index, "put down")] }, Except.ok ())
  else
    (f, Except.error "RuntimeError: release unlocked lock")

/-- The redundancy invariant between the two `Fork` fields: `picked_up`
holds exactly when `owner` is not the sentinel `-1`. -/
def Fork.agrees (f : Fork) : Prop :=
  f.picked_up = true ↔ f.owner ≠ -1

instance (f : Fork) : Decidable f.agrees := by
  unfold Fork.agrees; infer_instance

/-- Observable actions of a philosopher thread, in program order:
fork-lock acquisition attempts and releases, the `time.sleep(0.1)` backoff,
the `(index, "eating")` and `(index, "put down")` queue puts from
`Philosopher.eat`, the thinking sleep, and the terminal
`left the table` print from `Philosopher.run`. -/
inductive Act where
  | pickupOk (f : Nat)
  | pickupFail (f : Nat)
  | putDownAct (f : Nat)
  | backoff
  | eatingEv (i : Nat)
  | philPutDownEv (i : Nat)
  | thinkEv (i : Nat)
  | leftTable (i : Nat)
  deriving Repr, DecidableEq

/-- The fork-acquisition loop of `Philosopher.eat` (`while True: ...`),
for a philosopher whose `left_fork` attribute is fork `first` and whose
`right_fork` attribute is fork `second` (the code attempts `left_fork`
first).  Each loop iteration consumes one oracle pair giving the outcomes
of the (up to two) `pickup` calls of that iteration.  `none` means the
oracle ran out before both pickups succeeded in a single iteration. -/
def acquireLoop (first second : Nat) : List (Bool × Bool) → Option (List Act)
  | [] => none
  | (r1, r2) :: rest =>
    if r1 then
      if r2 then
        some [Act.pickupOk first, Act.pickupOk second]
      else
        (acquireLoop first second rest).map
          (fun t => Act.pickupOk first :: Act.pickupFail second ::
                    Act.putDownAct first :: t)
    else
      (acquireLoop first second rest).map
        (fun t => Act.pickupFail first :: Act.backoff :: t)

/-- `Philosopher.eat` for philosopher `i` whose `left_fork`/`right_fork`
attributes are forks `first`/`second`.  `fin1` and `fin2` are the values
read from `self.finished` at its two reads (the check before the loop and
the check inside the `try` block); `raised` tells whether the consumption
`time.sleep` raises.  Returns the trace, the new `spaghetti` value and
whether an exception propagates out of `eat`; `none` when the acquisition
loop never completes.  The `finally` block always puts both forks down and
puts `(i, "put down")` on the philosopher's queue. -/
def eat (i first second : Nat) (fin1 fin2 raised : Bool)
    (oracle : List (Bool × Bool)) (spag : Int) :
    Option (List Act × Int × Bool) :=
  if fin1 then
    some ([], spag, false)
  else
    match acquireLoop first second oracle with
    | none => none
    | some t =>
      if fin2 then
        some (t ++ [Act.putDownAct first, Act.putDownAct second,
                    Act.philPutDownEv i], spag, false)
      else
        some (t ++ [Act.eatingEv i, Act.putDownAct first, Act.putDownAct second,
                    Act.philPutDownEv i], spag - 1, raised)

/-- `Philosopher.run`: `while self.spaghetti > 0: think(); eat()`, then the
terminal print.  One oracle list is consumed per `eat` call; `self.finished`
is `False` throughout the loop (it is set only after the loop by the same
thread) and the consumption sleep is assumed not to raise, as a raise would
abort the thread rather than complete the run.  Returns the trace, the list
of successive `spaghetti` values observed after each `eat`, and the final
`spaghetti` value. -/
def run (i first second : Nat) :
    Int → List (List (Bool × Bool)) → Option (List Act × List Int × Int)
  | spag, oracles =>
    if spag > 0 then
      match oracles with
      | [] => none
      | o :: rest =>
        match eat i first second false false false o spag with
        | none => none
        | some (t, s2, _) =>
          match run i first second s2 rest with
          | none => none
          | some (t2, hist, sf) =>
            some (Act.thinkEv i :: (t ++ t2), s2 :: hist, sf)
    else
      some ([Act.leftTable i], [], spag)

/-- Number of `(i, "eating")` queue puts in a trace. -/
def countEating : List Act → Nat
  | [] => 0
  | Act.eatingEv _ :: t => countEating t + 1
  | _ :: t => countEating t

/-- Number of terminal `left the table` prints in a trace. -/
def countLeft : List Act → Nat
  | [] => 0
  | Act.leftTable _ :: t => countLeft t + 1
  | _ :: t => countLeft t

/-- Number of successful `pickup` calls on fork `f` in a trace. -/
def countPick (f : Nat) : List Act → Nat
  | [] => 0
  | Act.pickupOk g :: t => countPick f t + (if g = f then 1 else 0)
  | _ :: t => countPick f t

/-- Number of `put_down` calls on fork `f` in a trace. -/
def countDown (f : Nat) : List Act → Nat
  | [] => 0
  | Act.putDownAct g :: t => countDown f t + (if g = f then 1 else 0)
  | _ :: t => countDown f t

/-- Checks that a trace of the fork-acquisition loop follows the protocol
the spec describes: every iteration either fails on the first fork and
backs off, or succeeds on the first fork, fails on the second and puts the
first back down; the trace ends exactly when both pickups of one iteration
succeed. -/
def cycleOK (first second : Nat) : List Act → Bool
  | [Act.pickupOk f1, Act.pickupOk f2] => f1 == first && f2 == second
  | Act.pickupFail f :: Act.backoff :: rest =>
    f == first && cycleOK first second rest
  | Act.pickupOk f1 :: Act.pickupFail f2 :: Act.putDownAct f3 :: rest =>
    f1 == first && f2 == second && f3 == first && cycleOK first second rest
  | _ => false

/-- Construction parameters of one `Philosopher(...)` call in `main`:
its `index`, the fork indices bound to its `left_fork` and `right_fork`
attributes, its `spaghetti`, and the identity of the `Queue` it is given
(queues are identified by allocation order in `main`: `forks[i]` holds the
`i`-th allocation). -/
structure PhilInit where
  index : Nat
  left_fork : Nat
  right_fork : Nat
  spaghetti : Int
  queueId : Nat
  deriving Repr, DecidableEq

/-- The list-comprehension construction in `main`:
`Philosopher(i, forks[i], forks[(i + 1) % n], m, forks[i].queue)`. -/
def mainPhilosophersComp (n : Nat) (m : Int) : List PhilInit :=
  (List.range n).map fun i =>
    { index := i, left_fork := i, right_fork := (i + 1) % n,
      spaghetti := m, queueId := i }

/-- The explicit-loop construction in `main`, which overwrites the previous
one: `right_fork_index = i`, `left_fork_index = (i + n - 1) % n`,
`Philosopher(i, forks[right_fork_index], forks[left_fork_index], m,
forks[i].queue)` — so the `left_fork` attribute is bound to `forks[i]`. -/
def mainPhilosophersLoop (n : Nat) (m : Int) : List PhilInit :=
  (List.range n).map fun i =>
    { index := i, left_fork := i, right_fork := (i + n - 1) % n,
      spaghetti := m, queueId := i }

/-- Identity of the `Queue()` given to `forks[i]` in `main`
(the `i`-th allocation). -/
def forkQueueId (i : Nat) : Nat := i

/-- Identity of the fresh `Queue()` allocated inside `animated_table`,
the observer: the `n`-th allocation, after the `n` fork queues. -/
def observerQueueId (n : Nat) : Nat := n

/-- The hard-coded configuration in `main`: `n: int = 5`. -/
def mainN : Nat := 5

/-- The hard-coded configuration in `main`: `m: int = 7`. -/
def mainM : Int := 7

/-- Number of philosopher threads `main` starts with configuration
`(n, m)`: `philosopher.start()` is called once per constructed
philosopher, with no validation of `n` or `m` anywhere in `main`. -/
def mainStartedThreads (n : Nat) (m : Int) : Nat :=
  (mainPhilosophersLoop n m).length

theorem countEating_append (a b : List Act) :
    countEating (a ++ b) = countEating a + countEating b := by
  induction a with
  | nil => simp [countEating]
  | cons x t ih => cases x <;> simp [countEating, ih] <;> omega

theorem countLeft_append (a b : List Act) :
    countLeft (a ++ b) = countLeft a + countLeft b := by
  induction a with
  | nil => simp [countLeft]
  | cons x t ih => cases x <;> simp [countLeft, ih] <;> omega

theorem countPick_append (f : Nat) (a b : List Act) :
    countPick f (a ++ b) = countPick f a + countPick f b := by
  induction a with
  | nil => simp [countPick]
  | cons x t ih => cases x <;> simp [countPick, ih] <;> omega

theorem countDown_append (f : Nat) (a b : List Act) :
    countDown f (a ++ b) = countDown f a + countDown f b := by
  induction a with
  | nil => simp [countDown]
  | cons x t ih => cases x <;> simp [countDown, ih] <;> omega

/-- The acquisition loop emits no eating events and no terminal prints. -/
theorem acquireLoop_counts (first second : Nat) :
    ∀ (o : List (Bool × Bool)) (t : List Act),
      acquireLoop first second o = some t →
      countEating t = 0 ∧ countLeft t = 0 := by
  intro o
  induction o with
  | nil => intro t h; simp [acquireLoop] at h
  | cons r rest ih =>
    obtain ⟨r1, r2⟩ := r
    intro t h
    simp only [acquireLoop] at h
    cases r1 with
    | false =>
      simp only [Bool.false_eq_true, if_false, Option.map_eq_some'] at h
      obtain ⟨t', ht', rfl⟩ := h
      simpa [countEating, countLeft] using ih t' ht'
    | true =>
      cases r2 with
      | false =>
        simp only [if_true, Bool.false_eq_true, if_false,
          Option.map_eq_some'] at h
        obtain ⟨t', ht', rfl⟩ := h
        simpa [countEating, countLeft] using ih t' ht'
      | true =>
        simp only [if_true, Option.some.injEq] at h
        subst h
        simp [countEating, countLeft]

/-- Every completed acquisition loop's trace follows the retry protocol. -/
theorem acquireLoop_cycle (first second : Nat) :
    ∀ (o : List (Bool × Bool)) (t : List Act),
      acquireLoop first second o = some t →
      cycleOK first second t = true := by
  intro o
  induction o with
  | nil => intro t h; simp [acquireLoop] at h
  | cons r rest ih =>
    obtain ⟨r1, r2⟩ := r
    intro t h
    simp only [acquireLoop] at h
    cases r1 with
    | false =>
      simp only [Bool.false_eq_true, if_false, Option.map_eq_some'] at h
      obtain ⟨t', ht', rfl⟩ := h
      simp [cycleOK, ih t' ht']
    | true =>
      cases r2 with
      | false =>
        simp only [if_true, Bool.false_eq_true, if_false,
          Option.map_eq_some'] at h
        obtain ⟨t', ht', rfl⟩ := h
        simp [cycleOK, ih t' ht']
      | true =>
        simp only [if_true, Option.some.injEq] at h
        subst h
        simp [cycleOK]

/-- Pickup/put-down balance of a completed acquisition loop: every fork's
successful pickups exceed its put-downs by exactly the number of times it
occurs among the two forks finally held. -/
theorem acquireLoop_balance (first second : Nat) :
    ∀ (o : List (Bool × Bool)) (t : List Act),
      acquireLoop first second o = some t →
      ∀ f, countPick f t =
        countDown f t + (if first = f then 1 else 0) +
          (if second = f then 1 else 0) := by
  intro o
  induction o with
  | nil => intro t h; simp [acquireLoop] at h
  | cons r rest ih =>
    obtain ⟨r1, r2⟩ := r
    intro t h
    simp only [acquireLoop] at h
    cases r1 with
    | false =>
      simp only [Bool.false_eq_true, if_false, Option.map_eq_some'] at h
      obtain ⟨t', ht', rfl⟩ := h
      intro f
      simpa [countPick, countDown] using ih t' ht' f
    | true =>
      cases r2 with
      | false =>
        simp only [if_true, Bool.false_eq_true, if_false,
          Option.map_eq_some'] at h
        obtain ⟨t', ht', rfl⟩ := h
        intro f
        have := ih t' ht' f
        by_cases hf : first = f <;> simp [countPick, countDown, hf, this] <;> omega
      | true =>
        simp only [if_true, Option.some.injEq] at h
        subst h
        intro f
        by_cases h1 : first = f <;> by_cases h2 : second = f <;>
          simp [countPick, countDown, h1, h2]

/-- Behaviour of a completed `eat` in the context of `run` (both reads of
`finished` see `False`, the consumption sleep does not raise): `spaghetti`
drops by exactly one, exactly one `eating` event is put, and no terminal
print happens. -/
theorem eat_run_spec (i first second : Nat) (o : List (Bool × Bool))
    (spag : Int) (t : List Act) (s : Int) (ex : Bool)
    (h : eat i first second false false false o spag = some (t, s, ex)) :
    s = spag - 1 ∧ countEating t = 1 ∧ countLeft t = 0 ∧ ex = false := by
  simp only [eat, Bool.false_eq_true, if_false] at h
  cases hacq : acquireLoop first second o with
  | none => rw [hacq] at h; cases h
  | some t1 =>
    rw [hacq] at h
    simp only [Option.some.injEq, Prod.mk.injEq] at h
    obtain ⟨ht, hs, hex⟩ := h
    subst ht hs hex
    have hc := acquireLoop_counts first second o t1 hacq
    refine ⟨rfl, ?_, ?_, rfl⟩
    · simp [countEating_append, countEating, hc.1]
    · simp [countLeft_append, countLeft, hc.2]

/-- Behaviour of a completed `run` with non-negative starting budget:
final `spaghetti` is `0`, the number of `eating` events equals the
starting budget, exactly one terminal print happens, and every
intermediate `spaghetti` value is non-negative. -/
theorem run_spec (i first second : Nat) :
    ∀ (os : List (List (Bool × Bool))) (spag : Int) (t : List Act)
      (hist : List Int) (s : Int),
      0 ≤ spag →
      run i first second spag os = some (t, hist, s) →
      countEating t = spag.toNat ∧ countLeft t = 1 ∧ s = 0 ∧
        ∀ v ∈ hist, 0 ≤ v := by
  intro os
  induction os with
  | nil =>
    intro spag t hist s h0 hrun
    by_cases h : spag > 0
    · simp [run, h] at hrun
    · simp only [run, if_neg h, Option.some.injEq, Prod.mk.injEq] at hrun
      obtain ⟨ht, hh, hs⟩ := hrun
      subst ht hh hs
      have hz : spag = 0 := le_antisymm (not_lt.1 h) h0
      subst hz
      simp [countEating, countLeft]
  | cons o rest ih =>
    intro spag t hist s h0 hrun
    by_cases h : spag > 0
    · simp only [run, if_pos h] at hrun
      cases heat : eat i first second false false false o spag with
      | none => simp [heat] at hrun
      | some v =>
        obtain ⟨t1, s2, ex⟩ := v
        simp only [heat] at hrun
        cases hrec : run i first second s2 rest with
        | none => simp [hrec] at hrun
        | some w =>
          obtain ⟨t2, hist2, sf⟩ := w
          simp only [hrec, Option.some.injEq, Prod.mk.injEq] at hrun
          obtain ⟨ht, hh, hs⟩ := hrun
          subst ht hh hs
          obtain ⟨hs2, he1, hl1, -⟩ :=
            eat_run_spec i first second o spag t1 s2 ex heat
          have h2 : (0 : Int) ≤ s2 := by omega
          obtain ⟨ihe, ihl, ihs, ihh⟩ := ih s2 t2 hist2 sf h2 hrec
          refine ⟨?_, ?_, ihs, ?_⟩
          · simp only [countEating, countEating_append, he1, ihe]
            omega
          · simp only [countLeft, countLeft_append, hl1, ihl]
          · intro v hv
            rcases List.mem_cons.1 hv with h | h
            · subst h; exact h2
            · exact ihh v h
    · simp only [run, if_neg h, Option.some.injEq, Prod.mk.injEq] at hrun
      obtain ⟨ht, hh, hs⟩ := hrun
      subst ht hh hs
      have hz : spag = 0 := le_antisymm (not_lt.1 h) h0
      subst hz
      simp [countEating, countLeft]

/-- The element at index `i` of the list-comprehension construction. -/
theorem mainPhilosophersComp_get (n : Nat) (m : Int) (i : Nat) (h : i < n) :
    (mainPhilosophersComp n m)[i]? =
      some { index := i, left_fork := i, right_fork := (i + 1) % n,
             spaghetti := m, queueId := i } := by
  simp [mainPhilosophersComp, List.getElem?_map, List.getElem?_range, h]

/-- The element at index `i` of the explicit-loop construction. -/
theorem mainPhilosophersLoop_get (n : Nat) (m : Int) (i : Nat) (h : i < n) :
    (mainPhilosophersLoop n m)[i]? =
      some { index := i, left_fork := i, right_fork := (i + n - 1) % n,
             spaghetti := m, queueId := i } := by
  simp [mainPhilosophersLoop, List.getElem?_map, List.getElem?_range, h]

/-- A successful lookup in the explicit-loop construction determines the
index bound and the philosopher's fields. -/
theorem mainPhilosophersLoop_get_inv (n : Nat) (m : Int) (i : Nat)
    (p : PhilInit) (h : (mainPhilosophersLoop n m)[i]? = some p) :
    i < n ∧ p.left_fork = i ∧ p.right_fork = (i + n - 1) % n ∧
      p.queueId = i := by
  have hi : i < n := by
    by_contra hge
    have : (mainPhilosophersLoop n m)[i]? = none := by
      refine List.getElem?_eq_none ?_
      simpa [mainPhilosophersLoop] using not_lt.1 hge
    rw [this] at h
    cases h
  rw [mainPhilosophersLoop_get n m i hi] at h
  cases h
  exact ⟨hi, rfl, rfl, rfl⟩

/-- A successful lookup in the list-comprehension construction determines
the index bound and the philosopher's fields. -/
theorem mainPhilosophersComp_get_inv (n : Nat) (m : Int) (i : Nat)
    (p : PhilInit) (h : (mainPhilosophersComp n m)[i]? = some p) :
    i < n ∧ p.left_fork = i ∧ p.right_fork = (i + 1) % n := by
  have hi : i < n := by
    by_contra hge
    have : (mainPhilosophersComp n m)[i]? = none := by
      refine List.getElem?_eq_none ?_
      simpa [mainPhilosophersComp] using not_lt.1 hge
    rw [this] at h
    cases h
  rw [mainPhilosophersComp_get n m i hi] at h
  cases h
  exact ⟨hi, rfl, rfl⟩

/-- C4: `Fork.pickup(owner)` on success (the lock is acquired before the
timeout) sets `owner` to the given actor id, sets `picked_up`, appends
exactly one `(index, "pickup")` event to the fork's queue and returns
`True`; on timeout it returns `False` leaving the fork — owner, flag and
queue — unchanged. -/
theorem pickup_success_failure_spec (f : Fork) (o : Int) :
    ((f.pickup o true).2 = true ∧
     (f.pickup o true).1.owner = o ∧
     (f.pickup o true).1.picked_up = true ∧
     (f.pickup o true).1.queue = f.queue ++ [(f.index, "pickup")]) ∧
    ((f.pickup o false).2 = false ∧ (f.pickup o false).1 = f) := by
  simp [Fork.pickup]

/-- C5: `Fork.put_down()` on a fork whose lock is held resets `owner` to
`-1`, clears `picked_up` and appends exactly one `(index, "put down")`
event; on a fork whose lock is not held, `lock.release()` raises
(`RuntimeError`) before any mutation, so the error propagates and the fork
is unchanged. -/
theorem put_down_held_unheld_spec (f : Fork) :
    (f.locked = true →
      (f.put_down).2 = Except.ok () ∧
      (f.put_down).1.owner = -1 ∧
      (f.put_down).1.picked_up = false ∧
      (f.put_down).1.queue = f.queue ++ [(f.index, "put down")]) ∧
    (f.locked = false →
      (f.put_down).2 = Except.error "RuntimeError: release unlocked lock" ∧
      (f.put_down).1 = f) := by
  constructor <;> intro h <;> simp [Fork.put_down, h]

/-- Witness for C5 at concrete forks: a fork picked up once is held and
`put_down` succeeds with the stated effects; a freshly constructed fork is
unheld and `put_down` errors leaving it unchanged. -/
theorem put_down_held_unheld_spec_witness :
    (((Fork.init 0).pickup 1 true).1.locked = true ∧
     ((Fork.init 0).pickup 1 true).1.put_down.2 = Except.ok () ∧
     ((Fork.init 0).pickup 1 true).1.put_down.1.owner = -1 ∧
     ((Fork.init 0).pickup 1 true).1.put_down.1.picked_up = false ∧
     ((Fork.init 0).pickup 1 true).1.put_down.1.queue =
       ((Fork.init 0).pickup 1 true).1.queue ++ [(0, "put down")]) ∧
    ((Fork.init 2).locked = false ∧
     (Fork.init 2).put_down.2 =
       Except.error "RuntimeError: release unlocked lock" ∧
     (Fork.init 2).put_down.1 = Fork.init 2) := by
  have h1 := (put_down_held_unheld_spec ((Fork.init 0).pickup 1 true).1).1 rfl
  have h2 := (put_down_held_unheld_spec (Fork.init 2)).2 rfl
  exact ⟨⟨rfl, h1.1, h1.2.1, h1.2.2.1, h1.2.2.2⟩, rfl, h2.1, h2.2⟩

/-- C6: the redundancy invariant `picked_up = (owner != -1)` holds for a
freshly constructed fork and is preserved by every completed `pickup`
(callers pass a philosopher index, a natural number) and by every
`put_down`, on both the success and the failure path. -/
theorem fork_held_owner_agreement :
    (∀ i : Nat, (Fork.init i).agrees) ∧
    (∀ (f : Fork) (idx : Nat) (acq : Bool), f.agrees →
      ((f.pickup (idx : Int) acq).1).agrees) ∧
    (∀ f : Fork, f.agrees → ((f.put_down).1).agrees) := by
  refine ⟨?_, ?_, ?_⟩
  · intro i
    simp [Fork.init, Fork.agrees]
  · intro f idx acq hf
    cases acq with
    | false => simpa [Fork.pickup, Fork.agrees] using hf
    | true =>
      have hne : ((idx : Int)) ≠ -1 := by omega
      simp [Fork.pickup, Fork.agrees, hne]
  · intro f hf
    by_cases h : f.locked
    · simp [Fork.put_down, h, Fork.agrees]
    · simpa [Fork.put_down, h, Fork.agrees] using hf

/-- Witness for C6 at concrete forks: the invariant holds initially, after
a successful pickup by philosopher 2, and after the subsequent put-down. -/
theorem fork_held_owner_agreement_witness :
    (Fork.init 5).agrees ∧
    (((Fork.init 1).pickup ((2 : Nat) : Int) true).1).agrees ∧
    ((((Fork.init 1).pickup ((2 : Nat) : Int) true).1).put_down.1).agrees := by
  have h0 : (Fork.init 1).agrees := fork_held_owner_agreement.1 1
  have h1 := fork_held_owner_agreement.2.1 (Fork.init 1) 2 true h0
  exact ⟨fork_held_owner_agreement.1 5, h1,
    fork_held_owner_agreement.2.2 _ h1⟩

/-- C9 counterexample: with the configured `n = 5`, `m = 7`, the
list-comprehension construction and the explicit-loop construction give
different `(left_fork, right_fork)` pairs (already at philosopher 0:
`(0, 1)` against `(0, 4)`). -/
theorem fork_assignment_pair_cex :
    (mainPhilosophersComp 5 7).map (fun p => (p.left_fork, p.right_fork)) ≠
      (mainPhilosophersLoop 5 7).map (fun p => (p.left_fork, p.right_fork)) := by
  decide

/-- C9 amended: for `i < n`, the two constructions assign philosopher `i`
the same `(left_fork, right_fork)` pair exactly when `n ≤ 2`; for
`n ≥ 3` the index arithmetic `(i + 1) % n` against `(i + n - 1) % n`
differs, and the explicit loop's assignment is the one in effect since it
overwrites the comprehension's. -/
theorem fork_assignment_pairs_agree_iff (n : Nat) (m : Int) (i : Nat)
    (p q : PhilInit)
    (hp : (mainPhilosophersComp n m)[i]? = some p)
    (hq : (mainPhilosophersLoop n m)[i]? = some q) :
    ((p.left_fork, p.right_fork) = (q.left_fork, q.right_fork)) ↔ n ≤ 2 := by
  obtain ⟨hi, hpl, hpr⟩ := mainPhilosophersComp_get_inv n m i p hp
  obtain ⟨-, hql, hqr, -⟩ := mainPhilosophersLoop_get_inv n m i q hq
  rw [hpl, hpr, hql, hqr, Prod.mk.injEq]
  have hn1 : 1 ≤ n := Nat.one_le_of_lt (Nat.lt_of_le_of_lt (Nat.zero_le i) hi)
  constructor
  · rintro ⟨-, he⟩
    by_contra h3
    have h3' : 3 ≤ n := by omega
    have he' : i + 1 ≡ i + (n - 1) [MOD n] := by
      have : i + n - 1 = i + (n - 1) := by omega
      rw [this] at he
      exact he
    have hcan : 1 ≡ n - 1 [MOD n] := Nat.ModEq.add_left_cancel' i he'
    have h1 : 1 % n = 1 := Nat.mod_eq_of_lt (by omega)
    have h2 : (n - 1) % n = n - 1 := Nat.mod_eq_of_lt (by omega)
    have heq : 1 % n = (n - 1) % n := hcan
    rw [h1, h2] at heq
    omega
  · intro hn
    refine ⟨rfl, ?_⟩
    have : n = 1 ∨ n = 2 := by omega
    rcases this with h | h
    · subst h; simp [Nat.mod_one]
    · subst h
      have : i + 2 - 1 = i + 1 := by omega
      rw [this]

/-- Witness for C9's amended statement at `n = 5`, `i = 0`: the pairs
`(0, 1)` and `(0, 4)` differ, as `5 ≤ 2` is false. -/
theorem fork_assignment_pairs_agree_iff_witness :
    ¬ (((0 : Nat), (1 : Nat)) = ((0 : Nat), (4 : Nat))) :=
  fun h =>
    absurd ((fork_assignment_pairs_agree_iff 5 7 0
      { index := 0, left_fork := 0, right_fork := 1, spaghetti := 7,
        queueId := 0 }
      { index := 0, left_fork := 0, right_fork := 4, spaghetti := 7,
        queueId := 0 }
      (by decide) (by decide)).mp h) (by decide)

/-- C8 counterexample: with the configured `n = 5`, fork 0 and fork 1
publish to different queues, and the fresh queue the observer
(`animated_table`) allocates receives no fork's events — there is no
single shared channel drained by the observer. -/
theorem single_shared_channel_cex :
    forkQueueId 0 ≠ forkQueueId 1 ∧
    observerQueueId 5 ∉ (List.range 5).map forkQueueId := by
  decide

/-- C8 amended: philosopher `i` publishes to the same queue as fork `i`
(it is constructed with `forks[i].queue`), but the `n` fork queues are
pairwise distinct, and the fresh queue `animated_table` allocates is not
any of them: events go to `n` per-index channels, none of which is the
observer's own queue. -/
theorem per_index_queues (n : Nat) (m : Int) (i : Nat) (p : PhilInit)
    (hp : (mainPhilosophersLoop n m)[i]? = some p) :
    p.queueId = forkQueueId i ∧
    ((List.range n).map forkQueueId).Nodup ∧
    observerQueueId n ∉ (List.range n).map forkQueueId := by
  obtain ⟨-, -, -, hqid⟩ := mainPhilosophersLoop_get_inv n m i p hp
  have hfid : forkQueueId = id := rfl
  have hmap : (List.range n).map forkQueueId = List.range n := by
    rw [hfid, List.map_id]
  refine ⟨hqid, ?_, ?_⟩
  · rw [hmap]; exact List.nodup_range n
  · rw [hmap]; simp [observerQueueId, List.mem_range]

/-- Witness for C8's amended statement at `n = 5`, `i = 2`. -/
theorem per_index_queues_witness :
    ({ index := 2, left_fork := 2, right_fork := 1, spaghetti := 7,
       queueId := 2 } : PhilInit).queueId = forkQueueId 2 ∧
    ((List.range 5).map forkQueueId).Nodup ∧
    observerQueueId 5 ∉ (List.range 5).map forkQueueId :=
  per_index_queues 5 7 2 _ (by decide)

/-- C10 counterexample: the configuration `n = 1` violates `N ≥ 2`, yet
`main`'s body run on it starts one philosopher thread rather than
rejecting before any actor starts. -/
theorem config_validation_cex :
    1 < 2 ∧ mainStartedThreads 1 7 ≠ 0 := by decide

/-- C10 amended: `main` contains no configuration validation — for every
`(n, m)` its body constructs and starts exactly `n` philosopher threads.
The configuration is hard-coded to `n = 5`, `m = 7`, which satisfies the
constraints `N ≥ 2` and `M ≥ 1`, so an invalid configuration never arises
in a run of the unmodified program, but none would be rejected. -/
theorem main_starts_unconditionally :
    (∀ (n : Nat) (m : Int), mainStartedThreads n m = n) ∧
    mainN = 5 ∧ mainM = 7 ∧ 2 ≤ mainN ∧ 1 ≤ mainM := by
  refine ⟨?_, rfl, rfl, by decide, by decide⟩
  intro n m
  simp [mainStartedThreads, mainPhilosophersLoop]

/-- C2: under `main`'s wiring (the explicit loop, which overwrites the
comprehension and is in effect), philosopher `i`'s first `pickup` is on
fork `i` — the canonical right resource `resource[i]` — and its second on
fork `(i + n - 1) % n` — the canonical left. Every completed acquisition
trace follows the protocol: a timed-out first attempt is followed by the
backoff sleep and a retry of the first attempt; a successful first
attempt whose second attempt times out is followed by an unconditional
put-down of the first fork and a return to the first attempt; the loop
ends exactly when both attempts of one iteration succeed, and only then
does the eating phase follow. -/
theorem acquisition_right_first_protocol (n : Nat) (m : Int) (i : Nat)
    (p : PhilInit) (oracle : List (Bool × Bool)) (t : List Act)
    (hp : (mainPhilosophersLoop n m)[i]? = some p)
    (ht : acquireLoop p.left_fork p.right_fork oracle = some t) :
    p.left_fork = i ∧ p.right_fork = (i + n - 1) % n ∧
    cycleOK p.left_fork p.right_fork t = true ∧
    ∀ spag : Int,
      eat p.index p.left_fork p.right_fork false false false oracle spag =
        some (t ++ [Act.eatingEv p.index, Act.putDownAct p.left_fork,
                    Act.putDownAct p.right_fork, Act.philPutDownEv p.index],
              spag - 1, false) := by
  obtain ⟨-, hl, hr, -⟩ := mainPhilosophersLoop_get_inv n m i p hp
  refine ⟨hl, hr, acquireLoop_cycle _ _ oracle t ht, ?_⟩
  intro spag
  simp [eat, ht]

/-- Witness for C2 at `n = 5`, `i = 0` and the oracle in which the first
attempt first times out, then succeeds while the second times out, and
finally both succeed. -/
theorem acquisition_right_first_protocol_witness :
    cycleOK 0 4 [Act.pickupFail 0, Act.backoff, Act.pickupOk 0,
      Act.pickupFail 4, Act.putDownAct 0, Act.pickupOk 0,
      Act.pickupOk 4] = true ∧
    eat 0 0 4 false false false
        [(false, true), (true, false), (true, true)] 7 =
      some ([Act.pickupFail 0, Act.backoff, Act.pickupOk 0,
             Act.pickupFail 4, Act.putDownAct 0, Act.pickupOk 0,
             Act.pickupOk 4] ++
            [Act.eatingEv 0, Act.putDownAct 0, Act.putDownAct 4,
             Act.philPutDownEv 0], 6, false) := by
  have h := acquisition_right_first_protocol 5 7 0
    { index := 0, left_fork := 0, right_fork := 4, spaghetti := 7,
      queueId := 0 }
    [(false, true), (true, false), (true, true)]
    [Act.pickupFail 0, Act.backoff, Act.pickupOk 0, Act.pickupFail 4,
     Act.putDownAct 0, Act.pickupOk 0, Act.pickupOk 4]
    (by decide) rfl
  exact ⟨h.2.2.1, h.2.2.2 7⟩

/-- C7: on every path through `eat` — early return at the first `finished`
check, release-on-second-timeout inside the acquisition loop, early
return via the `finished` check inside `try`, and an exception raised
during the consumption sleep — every successful fork pickup is matched by
a put-down before `eat` returns: whenever `eat` returns, each fork's
successful pickups in the call equal its put-downs, so the philosopher
holds no fork on return. -/
theorem eat_releases_every_fork (i first second : Nat)
    (fin1 fin2 raised : Bool) (oracle : List (Bool × Bool)) (spag : Int)
    (t : List Act) (s : Int) (ex : Bool)
    (h : eat i first second fin1 fin2 raised oracle spag = some (t, s, ex)) :
    ∀ f, countPick f t = countDown f t := by
  intro f
  cases fin1 with
  | true =>
    simp only [eat, if_true, Option.some.injEq, Prod.mk.injEq] at h
    obtain ⟨ht, -, -⟩ := h
    subst ht
    simp [countPick, countDown]
  | false =>
    simp only [eat, Bool.false_eq_true, if_false] at h
    cases hacq : acquireLoop first second oracle with
    | none => rw [hacq] at h; cases h
    | some t1 =>
      rw [hacq] at h
      have hb := acquireLoop_balance first second oracle t1 hacq f
      cases fin2 with
      | true =>
        simp only [if_true, Option.some.injEq, Prod.mk.injEq] at h
        obtain ⟨ht, -, -⟩ := h
        subst ht
        by_cases h1 : first = f <;> by_cases h2 : second = f <;>
          simp [countPick_append, countDown_append, countPick, countDown,
            h1, h2, hb]
      | false =>
        simp only [Bool.false_eq_true, if_false, Option.some.injEq,
          Prod.mk.injEq] at h
        obtain ⟨ht, -, -⟩ := h
        subst ht
        by_cases h1 : first = f <;> by_cases h2 : second = f <;>
          simp [countPick_append, countDown_append, countPick, countDown,
            h1, h2, hb]

/-- Witness for C7: a concrete completed `eat` in which the philosopher
loses the second fork once (so fork 0 is picked up twice and fork 4
once), with every fork's pickups equal to its put-downs. -/
theorem eat_releases_every_fork_witness :
    eat 1 0 4 false false false
        [(true, false), (true, true)] 3 =
      some ([Act.pickupOk 0, Act.pickupFail 4, Act.putDownAct 0,
             Act.pickupOk 0, Act.pickupOk 4, Act.eatingEv 1,
             Act.putDownAct 0, Act.putDownAct 4, Act.philPutDownEv 1],
            2, false) ∧
    countPick 0 [Act.pickupOk 0, Act.pickupFail 4, Act.putDownAct 0,
             Act.pickupOk 0, Act.pickupOk 4, Act.eatingEv 1,
             Act.putDownAct 0, Act.putDownAct 4, Act.philPutDownEv 1] =
      countDown 0 [Act.pickupOk 0, Act.pickupFail 4, Act.putDownAct 0,
             Act.pickupOk 0, Act.pickupOk 4, Act.eatingEv 1,
             Act.putDownAct 0, Act.putDownAct 4, Act.philPutDownEv 1] :=
  ⟨rfl, eat_releases_every_fork 1 0 4 false false false
    [(true, false), (true, true)] 3 _ 2 false rfl 0⟩

/-- C1: assuming every `eat()` call completes, (1) each completed eating
phase decrements `spaghetti` by exactly 1 and puts exactly one
`(i, "eating")` event; (2) a completed `run` from initial budget `M ≥ 1`
ends with `spaghetti = 0`, every intermediate `spaghetti` value
non-negative, exactly `M` eating events and exactly one terminal
`left the table` message; (3) in the configured scenario `n = 5`,
`m = 7` with `main`'s wiring, five completed runs total exactly 35
eating events and exactly 5 terminal messages. -/
theorem run_budget_conservation_and_events :
    (∀ (i first second : Nat) (o : List (Bool × Bool)) (spag : Int)
        (t : List Act) (s : Int) (ex : Bool),
        eat i first second false false false o spag = some (t, s, ex) →
        s = spag - 1 ∧ countEating t = 1) ∧
    (∀ (i first second M : Nat) (os : List (List (Bool × Bool)))
        (t : List Act) (hist : List Int) (s : Int),
        1 ≤ M →
        run i first second (M : Int) os = some (t, hist, s) →
        countEating t = M ∧ countLeft t = 1 ∧ s = 0 ∧
          ∀ v ∈ hist, 0 ≤ v) ∧
    (∀ tr : Fin 5 → List Act,
        (∀ j : Fin 5, ∃ (p : PhilInit) (os : List (List (Bool × Bool)))
            (hist : List Int) (s : Int),
            (mainPhilosophersLoop 5 7)[j.1]? = some p ∧
            run j.1 p.left_fork p.right_fork 7 os = some (tr j, hist, s)) →
        (∑ j : Fin 5, countEating (tr j)) = 35 ∧
        (∑ j : Fin 5, countLeft (tr j)) = 5) := by
  refine ⟨?_, ?_, ?_⟩
  · intro i first second o spag t s ex h
    have := eat_run_spec i first second o spag t s ex h
    exact ⟨this.1, this.2.1⟩
  · intro i first second M os t hist s hM hrun
    have h0 : (0 : Int) ≤ (M : Int) := Int.natCast_nonneg M
    have := run_spec i first second os (M : Int) t hist s h0 hrun
    refine ⟨?_, this.2.1, this.2.2.1, this.2.2.2⟩
    simpa using this.1
  · intro tr h
    have hj : ∀ j : Fin 5, countEating (tr j) = 7 ∧ countLeft (tr j) = 1 := by
      intro j
      obtain ⟨p, os, hist, s, -, hrun⟩ := h j
      have := run_spec j.1 p.left_fork p.right_fork os 7 (tr j) hist s
        (by norm_num) hrun
      exact ⟨by simpa using this.1, this.2.1⟩
    constructor
    · have : (∑ j : Fin 5, countEating (tr j)) = ∑ _j : Fin 5, 7 :=
        Finset.sum_congr rfl fun j _ => (hj j).1
      rw [this]
      simp
    · have : (∑ j : Fin 5, countLeft (tr j)) = ∑ _j : Fin 5, 1 :=
        Finset.sum_congr rfl fun j _ => (hj j).2
      rw [this]
      simp

/-- The oracle under which every acquisition succeeds at the first
attempt, for seven eating phases. -/
def sampleOracles : List (List (Bool × Bool)) :=
  List.replicate 7 [(true, true)]

/-- The trace of philosopher `j`'s completed run under `main`'s wiring
(`first = j`, `second = (j + 4) % 5`) with the all-success oracle. -/
def sampleTr (j : Nat) : List Act :=
  ((run j j ((j + 4) % 5) 7 sampleOracles).getD ([], [], 0)).1

/-- The intermediate `spaghetti` values of that same run. -/
def sampleHist (j : Nat) : List Int :=
  ((run j j ((j + 4) % 5) 7 sampleOracles).getD ([], [], 0)).2.1

/-- Witness for C1: philosopher 0's concrete completed run has 7 eating
events and one terminal message, and the five concrete runs of the
`n = 5`, `m = 7` scenario total 35 eating events and 5 terminal
messages. -/
theorem run_budget_conservation_and_events_witness :
    (countEating (sampleTr 0) = 7 ∧ countLeft (sampleTr 0) = 1) ∧
    (∑ j : Fin 5, countEating (sampleTr j.1)) = 35 ∧
    (∑ j : Fin 5, countLeft (sampleTr j.1)) = 5 := by
  have h2 := run_budget_conservation_and_events.2.1 0 0 4 7 sampleOracles
    (sampleTr 0) (sampleHist 0) 0 (by norm_num) rfl
  have h3 := run_budget_conservation_and_events.2.2
    (fun j : Fin 5 => sampleTr j.1) ?_
  · exact ⟨⟨h2.1, h2.2.1⟩, h3⟩
  · intro j
    fin_cases j
    · exact ⟨⟨0, 0, 4, 7, 0⟩, sampleOracles, sampleHist 0, 0, by decide, rfl⟩
    · exact ⟨⟨1, 1, 0, 7, 1⟩, sampleOracles, sampleHist 1, 0, by decide, rfl⟩
    · exact ⟨⟨2, 2, 1, 7, 2⟩, sampleOracles, sampleHist 2, 0, by decide, rfl⟩
    · exact ⟨⟨3, 3, 2, 7, 3⟩, sampleOracles, sampleHist 3, 0, by decide, rfl⟩
    · exact ⟨⟨4, 4, 3, 7, 4⟩, sampleOracles, sampleHist 4, 0, by decide, rfl⟩

end DiningPhil
